import Mathlib

/-!
Shallow embedding of the pnl-cloud-backend telemetry aggregation and
risk-scoring engine (src/main.py), together with theorems checking the
natural-language specification against it.

Modelling conventions: latencies and slippages are exact rationals
(the wire type of `latency_ms` is an integer, which embeds in `ℚ`);
results of floating-point library calls (`np.std`, `np.log`, `np.polyfit`)
are modelled as real numbers with exact arithmetic.  A window of telemetry
is a list of stored samples, in insertion order; the two read endpoints are
functions of such a window.
-/

namespace PnL

/-- The body of POST /v1/telemetry (pydantic class `TelemetryPayload`). -/
structure TelemetryPayload where
  broker : String
  latency_ms : ℚ
  slippage : ℚ
  status : String
deriving DecidableEq

/-- A stored telemetry row (`TelemetryDB`): the fields the read endpoints use. -/
structure Sample where
  broker : String
  latency_ms : ℚ
  slippage : ℚ
  status : String
deriving DecidableEq

/-- Python `str.lower()`, modelled character-wise. -/
def pyLower (s : String) : String := String.mk (s.data.map Char.toLower)

/-- POST /v1/telemetry stores the payload with the broker name lower-cased
(src/main.py, `submit_telemetry`). -/
def submit_telemetry (p : TelemetryPayload) : Sample :=
  ⟨pyLower p.broker, p.latency_ms, p.slippage, p.status⟩

/-- `statistics.mean`: the arithmetic mean, as an exact rational. -/
def mean (l : List ℚ) : ℚ := l.sum / l.length

/-- The mean of the squared deviations from the mean: the radicand of `np.std`. -/
def popVar (l : List ℚ) : ℚ := (l.map (fun x => (x - mean l) ^ 2)).sum / l.length

/-- `np.std`: the population standard deviation (square root of the mean
squared deviation; numpy divides by `n`, not `n-1`). -/
noncomputable def np_std (l : List ℚ) : ℝ := Real.sqrt ((popVar l : ℚ) : ℝ)

/-- `np.percentile(l, 99)` with numpy's default linear-interpolation method:
sort ascending, set `h = 0.99 * (n - 1)`, and interpolate between the sorted
values at positions `⌊h⌋` and `⌊h⌋ + 1` with fraction `h - ⌊h⌋`. -/
def np_percentile99 (l : List ℚ) : ℚ :=
  let s := l.mergeSort (fun a b => a ≤ b)
  let h : ℚ := 99 * ((l.length : ℚ) - 1) / 100
  let i : ℕ := (⌊h⌋).toNat
  s.getD i 0 + (h - (i : ℚ)) * (s.getD (i + 1) 0 - s.getD i 0)

/-- The nearest-rank 99th percentile as §4.2 of the spec words it: sort
ascending, take the element at index `floor(count * 0.99)` clamped to
`count - 1`, with no interpolation. -/
def p99_nearestRank (l : List ℚ) : ℚ :=
  (l.mergeSort (fun a b => a ≤ b)).getD (min (99 * l.length / 100) (l.length - 1)) 0

/-- The sample standard deviation with Bessel's correction (divide by `n - 1`),
as §4.2 of the spec words the jitter statistic. -/
noncomputable def sampleStd (l : List ℚ) : ℝ :=
  Real.sqrt ((((l.map (fun x => (x - mean l) ^ 2)).sum / ((l.length : ℚ) - 1)) : ℚ) : ℝ)

/-- Python `int(...)` applied to a rational value: truncation toward zero. -/
def pyIntQ (q : ℚ) : ℤ := if 0 ≤ q then ⌊q⌋ else ⌈q⌉

/-- Python `int(...)` applied to a real value: truncation toward zero. -/
noncomputable def pyIntR (x : ℝ) : ℤ := if 0 ≤ x then ⌊x⌋ else ⌈x⌉

/-- The lag-`k` first-difference series `np.subtract(ts[k:], ts[:-k])`. -/
def diffSeries (ts : List ℚ) (k : ℕ) : List ℚ :=
  List.zipWith (fun a b => a - b) (ts.drop k) ts

/-- The lag list `range(2, min(20, n // 2))`. -/
def hurstLags (n : ℕ) : List ℕ := List.range' 2 (min 20 (n / 2) - 2)

/-- The slope of the least-squares line through the points `(xs i, ys i)`:
`(n Σxy − Σx Σy) / (n Σx² − (Σx)²)`, the leading coefficient returned by
`np.polyfit(xs, ys, 1)`. -/
noncomputable def lstsqSlope (xs ys : List ℝ) : ℝ :=
  ((xs.length : ℝ) * (List.zipWith (fun a b => a * b) xs ys).sum - xs.sum * ys.sum) /
    ((xs.length : ℝ) * (xs.map (fun x => x ^ 2)).sum - xs.sum ^ 2)

/-- `calculate_hurst` from src/main.py: `0.5` for series shorter than 20;
otherwise the standard deviations `tau` of the lag-`k` difference series for
each lag, zero-or-negative entries replaced by `1e-6`, and twice the slope of
the least-squares fit of `log tau` against `log lag`. -/
noncomputable def calculate_hurst (ts : List ℚ) : ℝ :=
  if ts.length < 20 then 0.5
  else
    let lags := hurstLags ts.length
    let tau : List ℝ := lags.map (fun lag => np_std (diffSeries ts lag))
    let tau2 : List ℝ := tau.map (fun t => if t > 0 then t else 1e-6)
    lstsqSlope (lags.map (fun k => Real.log k)) (tau2.map Real.log) * 2.0

/-- The Hurst reference procedure as the spec words it: exactly `0.5` for
fewer than 20 samples; otherwise 2 times the least-squares slope of
`log(lag)` versus `log(std of the lag-k difference series)` over every lag
`k` in `2 ≤ k < min(20, count/2)`, a standard deviation that is zero or
negative being replaced by the epsilon `1e-6` before the logarithm. -/
noncomputable def hurst_ref (ts : List ℚ) : ℝ :=
  if ts.length < 20 then 0.5
  else
    2 * lstsqSlope
      ((hurstLags ts.length).map (fun k => Real.log k))
      ((hurstLags ts.length).map (fun k =>
        Real.log (if np_std (diffSeries ts k) ≤ 0 then 1e-6 else np_std (diffSeries ts k))))

/-- One step of the grouping loop of both read endpoints: append latency `x`
to broker `b`'s list, creating the entry on first sight (a python dict
insert-or-append). -/
def addSample : List (String × List ℚ) → String → ℚ → List (String × List ℚ)
  | [], b, x => [(b, [x])]
  | (k, xs) :: rest, b, x =>
      if k = b then (k, xs ++ [x]) :: rest else (k, xs) :: addSample rest b x

/-- Group a window of samples by broker — first-appearance key order,
per-broker window order — as the dict-building loops of `get_global_map`
and `get_smart_route` both do. -/
def groupBrokers (w : List Sample) : List (String × List ℚ) :=
  w.foldl (fun acc s => addSample acc s.broker s.latency_ms) []

/-- The latencies of broker `b` in window `w`, in window order. -/
def brokerLats (w : List Sample) (b : String) : List ℚ :=
  (w.filter (fun s => s.broker = b)).map (fun s => s.latency_ms)

/-- Look a broker's latency list up in a grouped association list
(`[]` when the broker is absent). -/
def groupLats : List (String × List ℚ) → String → List ℚ
  | [], _ => []
  | (k, xs) :: t, b => if k = b then xs else groupLats t b

/-- All latencies in the window, regardless of broker. -/
def allLats (w : List Sample) : List ℚ := w.map (fun s => s.latency_ms)

/-- `global_avg` in `get_global_map`: mean latency over every sample of the
window, and `0` for an empty window. -/
def global_avg (w : List Sample) : ℚ :=
  if allLats w = [] then 0 else mean (allLats w)

/-- One row of the GET /v1/global_status response. -/
structure GlobalEntry where
  broker : String
  p99 : ℤ
  jitter : ℤ
  hurst : ℝ
  correlation : ℚ
  history : List ℚ

/-- The per-broker body of the `get_global_map` loop. -/
noncomputable def globalEntry (gavg : ℚ) (broker : String) (lats : List ℚ) : GlobalEntry :=
  { broker := broker
    p99 := pyIntQ (np_percentile99 lats)
    jitter := pyIntR (np_std lats)
    hurst := calculate_hurst lats
    correlation := min 1 (mean lats / (gavg + 1))
    history := lats.drop (lats.length - 30) }

/-- The result rows of `get_global_map` before the final sort: brokers with
fewer than 5 samples in the window are skipped. -/
noncomputable def globalResults (w : List Sample) : List GlobalEntry :=
  ((groupBrokers w).filter (fun p => 5 ≤ p.2.length)).map
    (fun p => globalEntry (global_avg w) p.1 p.2)

/-- GET /v1/global_status: the qualifying rows sorted ascending by `p99`. -/
noncomputable def get_global_map (w : List Sample) : List GlobalEntry :=
  (globalResults w).mergeSort (fun a b => a.p99 ≤ b.p99)

/-- The body of POST /v1/oracle/route (pydantic class `RoutingRequest`). -/
structure RoutingRequest where
  symbol : String
  size : ℚ
  urgency : String

/-- The raw (pre-`int`) routing score of one broker's latency series, the
variable `score` of `get_smart_route`: `mean + jitter*2`, `+200` when the
Hurst estimate exceeds `0.6`, `+100` when `p99` exceeds `mean*3`, and the
whole thing replaced by the bare mean when the urgency is "high". -/
noncomputable def routingScore (lats : List ℚ) (urgency : String) : ℝ :=
  let avg_lat := mean lats
  let score0 : ℝ := (avg_lat : ℝ) + np_std lats * 2
  let score1 : ℝ := if calculate_hurst lats > 0.6 then score0 + 200 else score0
  let score2 : ℝ := if np_percentile99 lats > avg_lat * 3 then score1 + 100 else score1
  if urgency = "high" then (avg_lat : ℝ) else score2

/-- The `risk_flags` list of `get_smart_route`: the Hurst flag is appended
first, the fat-tail flag second, each under its penalty condition. -/
noncomputable def riskFlags (lats : List ℚ) : List String :=
  (if calculate_hurst lats > 0.6 then ["Unstable (High Hurst)"] else []) ++
    (if np_percentile99 lats > mean lats * 3 then ["Fat Tail Risk"] else [])

/-- One entry of `scored_brokers` in `get_smart_route`. -/
structure ScoredBroker where
  broker : String
  score : ℤ
  latency_ms : ℤ
  risk_flags : List String

/-- The per-broker scoring block of `get_smart_route`. -/
noncomputable def scoreBroker (urgency : String) (broker : String) (lats : List ℚ) :
    ScoredBroker :=
  { broker := broker
    score := pyIntR (routingScore lats urgency)
    latency_ms := pyIntQ (mean lats)
    risk_flags := riskFlags lats }

/-- `scored_brokers` in `get_smart_route`: brokers with fewer than 3 samples
in the window are skipped, the rest are scored. -/
noncomputable def scored_brokers (w : List Sample) (urgency : String) : List ScoredBroker :=
  ((groupBrokers w).filter (fun p => 3 ≤ p.2.length)).map
    (fun p => scoreBroker urgency p.1 p.2)

/-- `scored_brokers` after the ascending stable sort by the `score` field. -/
noncomputable def sortedScored (w : List Sample) (urgency : String) : List ScoredBroker :=
  (scored_brokers w urgency).mergeSort (fun a b => a.score ≤ b.score)

/-- The response of POST /v1/oracle/route.  The "no_data" case carries
`recommendation = none` and no other keys; the "optimized" case carries the
best broker, its metrics, and the alternatives. -/
structure RouteResponse where
  status : String
  recommendation : Option String
  expected_latency : Option ℤ
  risk_factors : Option (List String)
  alternatives : Option (List ScoredBroker)

/-- POST /v1/oracle/route: sort the scored brokers ascending by score;
if none qualify return the "no_data" response, otherwise recommend the
first and return the slice `[1:3]` as alternatives. -/
noncomputable def get_smart_route (w : List Sample) (req : RoutingRequest) : RouteResponse :=
  match sortedScored w req.urgency with
  | [] => ⟨"no_data", none, none, none, none⟩
  | best :: rest =>
      ⟨"optimized", some best.broker, some best.latency_ms, some best.risk_flags,
        some (rest.take 2)⟩

/-- The routing scoring formula of `get_smart_route` as a function of an
abstract statistics tuple `(mean_latency, jitter, hurst, p99, slippage)`;
the code reads no slippage statistic, so the score ignores that component. -/
noncomputable def routingScoreStats
    (mean_latency jitter hurst p99 slippage : ℝ) (urgency : String) : ℝ :=
  let score0 : ℝ := mean_latency + jitter * 2
  let score1 : ℝ := if hurst > 0.6 then score0 + 200 else score0
  let score2 : ℝ := if p99 > mean_latency * 3 then score1 + 100 else score1
  if urgency = "high" then mean_latency else score2

/-! ### Helper lemmas on statistics -/

/-- Expansion of a sum of squared deviations. -/
theorem sum_sq_dev (l : List ℚ) (m : ℚ) :
    (l.map (fun x => (x - m) ^ 2)).sum
      = (l.map (fun x => x ^ 2)).sum - 2 * m * l.sum + l.length * m ^ 2 := by
  induction l with
  | nil => simp
  | cons a t ih =>
      simp only [List.map_cons, List.sum_cons, ih, List.length_cons]
      push_cast
      ring

/-- The mean squared deviation in computational form: mean of squares minus
square of the mean. -/
theorem popVar_eq (l : List ℚ) (hl : l ≠ []) :
    popVar l = (l.map (fun x => x ^ 2)).sum / l.length - mean l ^ 2 := by
  have hn : (l.length : ℚ) ≠ 0 := by
    have := List.length_pos.mpr hl
    positivity
  unfold popVar mean
  rw [sum_sq_dev]
  field_simp
  ring

/-- The ascending merge sort of rationals is sorted (as a `≤` chain). -/
theorem mergeSort_pairwise_le (l : List ℚ) :
    (l.mergeSort (fun a b => a ≤ b)).Pairwise (fun a b : ℚ => a ≤ b) := by
  have h := @List.sorted_mergeSort ℚ (fun a b => decide (a ≤ b))
    (fun a b c h1 h2 => by
      simp only [decide_eq_true_eq] at *
      exact le_trans h1 h2)
    (fun a b => by simp [le_total]) l
  exact h.imp (fun hb => of_decide_eq_true hb)

/-- `getD` at an in-range index is a member of the list. -/
theorem getD_mem_of_lt (l : List ℚ) (i : ℕ) (hi : i < l.length) : l.getD i 0 ∈ l := by
  rw [List.getD_eq_getElem l 0 hi]
  exact List.getElem_mem hi

/-- `getD` is monotone along a `≤`-sorted list. -/
theorem getD_mono (l : List ℚ) (hs : l.Pairwise (fun a b : ℚ => a ≤ b)) {i j : ℕ}
    (hij : i ≤ j) (hj : j < l.length) : l.getD i 0 ≤ l.getD j 0 := by
  rw [List.getD_eq_getElem l 0 (lt_of_le_of_lt hij hj), List.getD_eq_getElem l 0 hj]
  rcases eq_or_lt_of_le hij with rfl | hlt
  · exact le_refl _
  · exact List.pairwise_iff_get.mp hs ⟨i, _⟩ ⟨j, _⟩ hlt

/-! ### Theorems -/

/-- C1: the Hurst estimator of the code equals the reference procedure of the
spec — exactly `0.5` for a series of fewer than 20 elements, and otherwise
2 times the least-squares slope of `log(lag)` against `log(std of the lag-k
first-difference series)` over the lags `2 ≤ k < min(20, count/2)`, a zero or
negative standard deviation being replaced by `1e-6` before the logarithm. -/
theorem calculate_hurst_eq_reference (ts : List ℚ) : calculate_hurst ts = hurst_ref ts := by
  unfold calculate_hurst hurst_ref
  split
  · rfl
  · simp only [List.map_map]
    rw [mul_comm]
    norm_num
    congr 1
    apply List.map_congr_left
    intro k _
    simp only [Function.comp]
    by_cases h : np_std (diffSeries ts k) ≤ 0
    · rw [if_neg (by exact not_lt.mpr h), if_pos h]
    · rw [if_pos (lt_of_not_le h), if_neg h]

/-- C2: for urgency other than "high", the routing score equals mean latency
plus 2 times jitter, plus 200 exactly when the Hurst estimate exceeds 0.6
(in which case and only in which case the flag "Unstable (High Hurst)" is
present), plus 100 exactly when p99 exceeds 3 times the mean latency (in
which case and only in which case the flag "Fat Tail Risk" is present). -/
theorem routingScore_formula (lats : List ℚ) (u : String) (hu : u ≠ "high") :
    routingScore lats u =
      ((mean lats : ℝ) + 2 * np_std lats)
        + (if calculate_hurst lats > 0.6 then (200 : ℝ) else 0)
        + (if np_percentile99 lats > 3 * mean lats then (100 : ℝ) else 0)
    ∧ ("Unstable (High Hurst)" ∈ riskFlags lats ↔ calculate_hurst lats > 0.6)
    ∧ ("Fat Tail Risk" ∈ riskFlags lats ↔ np_percentile99 lats > 3 * mean lats) := by
  refine ⟨?_, ?_, ?_⟩
  · unfold routingScore
    rw [if_neg hu]
    rw [show mean lats * 3 = 3 * mean lats from mul_comm _ _]
    by_cases h1 : calculate_hurst lats > 0.6 <;>
      by_cases h2 : np_percentile99 lats > 3 * mean lats <;>
        simp only [h1, h2, if_pos, if_neg, if_true, if_false] <;> ring
  · unfold riskFlags
    by_cases h1 : calculate_hurst lats > 0.6 <;>
      by_cases h2 : np_percentile99 lats > mean lats * 3 <;>
        simp [h1, h2]
  · unfold riskFlags
    rw [show mean lats * 3 = 3 * mean lats from mul_comm _ _]
    by_cases h1 : calculate_hurst lats > 0.6 <;>
      by_cases h2 : np_percentile99 lats > 3 * mean lats <;>
        simp [h1, h2]

/-- Witness for C2 at the concrete series `[1, 2, 3]` and urgency "normal". -/
theorem routingScore_formula_witness :
    routingScore [1, 2, 3] "normal" =
      ((mean [1, 2, 3] : ℝ) + 2 * np_std [1, 2, 3])
        + (if calculate_hurst [1, 2, 3] > 0.6 then (200 : ℝ) else 0)
        + (if np_percentile99 [1, 2, 3] > 3 * mean [1, 2, 3] then (100 : ℝ) else 0)
    ∧ ("Unstable (High Hurst)" ∈ riskFlags [1, 2, 3] ↔ calculate_hurst [1, 2, 3] > 0.6)
    ∧ ("Fat Tail Risk" ∈ riskFlags [1, 2, 3] ↔ np_percentile99 [1, 2, 3] > 3 * mean [1, 2, 3]) :=
  routingScore_formula [1, 2, 3] "normal" (by decide)

/-- C3: when the urgency is "high" the routing score of a latency series is
exactly its mean latency, and any two series with the same mean receive the
same score, whatever their jitter, Hurst estimate or p99. -/
theorem routingScore_high_urgency (u : String) (hu : u = "high") (l1 l2 : List ℚ)
    (hm : mean l1 = mean l2) :
    routingScore l1 u = (mean l1 : ℝ) ∧ routingScore l1 u = routingScore l2 u := by
  subst hu
  unfold routingScore
  simp [hm]

/-- Witness for C3: the series `[0, 10]` and `[5, 5]` share the mean 5 but
differ in jitter; with urgency "high" both score exactly 5. -/
theorem routingScore_high_urgency_witness :
    routingScore [0, 10] "high" = (mean [0, 10] : ℝ) ∧
      routingScore [0, 10] "high" = routingScore [5, 5] "high" :=
  routingScore_high_urgency "high" rfl [0, 10] [5, 5] (by norm_num [mean])

/-- C8 counterexample: the routing score is not monotone in the mean latency.
At jitter 0, Hurst 0.5, p99 31 and urgency "normal", raising the mean from 10
to 11 switches the fat-tail penalty off and lowers the score from 110 to 11. -/
theorem routingScore_not_monotone_in_mean :
    (10 : ℝ) ≤ 11 ∧
      routingScoreStats 11 0 0.5 31 0 "normal" < routingScoreStats 10 0 0.5 31 0 "normal" := by
  refine ⟨by norm_num, ?_⟩
  simp only [routingScoreStats]
  rw [if_neg (by norm_num : ¬ ((0.5 : ℝ) > 0.6)), if_neg (by norm_num : ¬ ((0.5 : ℝ) > 0.6))]
  rw [if_pos (by norm_num : (31 : ℝ) > 10 * 3), if_neg (by norm_num : ¬ ((31 : ℝ) > 11 * 3))]
  rw [if_neg (by decide : ¬ ("normal" = "high")), if_neg (by decide : ¬ ("normal" = "high"))]
  norm_num

/-- C8 amended: the routing score is monotonically non-decreasing in the
jitter and in the p99 components, and is independent of the slippage
component (which the scorer never reads), holding the other statistics and
the urgency fixed; it is not monotone in the mean latency. -/
theorem routingScoreStats_monotone (m j h p s : ℝ) (u : String) :
    (∀ j2, j ≤ j2 → routingScoreStats m j h p s u ≤ routingScoreStats m j2 h p s u) ∧
    (∀ p2, p ≤ p2 → routingScoreStats m j h p s u ≤ routingScoreStats m j h p2 s u) ∧
    (∀ s2, routingScoreStats m j h p s2 u = routingScoreStats m j h p s u) := by
  unfold routingScoreStats
  by_cases hu : u = "high"
  · simp [hu]
  · refine ⟨?_, ?_, ?_⟩
    · intro j2 hj
      simp only [if_neg hu]
      split_ifs <;> linarith
    · intro p2 hp
      simp only [if_neg hu]
      split_ifs <;> linarith
    · intro s2
      simp only [if_neg hu]

/-- Witness for the amended C8 at concrete statistics. -/
theorem routingScoreStats_monotone_witness :
    routingScoreStats 1 2 3 4 5 "normal" ≤ routingScoreStats 1 7 3 4 5 "normal" ∧
    routingScoreStats 1 2 3 4 5 "normal" ≤ routingScoreStats 1 2 3 9 5 "normal" ∧
    routingScoreStats 1 2 3 4 8 "normal" = routingScoreStats 1 2 3 4 5 "normal" :=
  ⟨(routingScoreStats_monotone 1 2 3 4 5 "normal").1 7 (by norm_num),
   (routingScoreStats_monotone 1 2 3 4 5 "normal").2.1 9 (by norm_num),
   (routingScoreStats_monotone 1 2 3 4 5 "normal").2.2 8⟩

/-- C5 counterexample: on the two-element series `[0, 2]` the jitter the code
computes (`np.std`, the population standard deviation) is `1`, while the
Bessel-corrected sample standard deviation the claim prescribes is `√2`. -/
theorem np_std_ne_sampleStd : np_std [0, 2] ≠ sampleStd [0, 2] := by
  have h1 : np_std [0, 2] = 1 := by
    have hv : popVar [0, 2] = 1 := by norm_num [popVar, mean]
    rw [np_std, hv]
    norm_num
  have h2 : sampleStd [0, 2] = Real.sqrt 2 := by
    rw [sampleStd]
    norm_num [mean]
  rw [h1, h2]
  intro h
  have h3 := Real.sqrt_eq_one.mp h.symm
  norm_num at h3

/-- C5 amended: for every non-empty latency series the jitter (`np.std`)
equals the population standard deviation — the square root of the mean of the
squares minus the square of the mean (equivalently, sum of squared deviations
divided by `n`, not `n − 1`) — and it equals `0` when the count is exactly 1.
(The jitter computation is never reached for counts below the per-endpoint
minimum sample thresholds, so a count of 0 does not occur.) -/
theorem np_std_population (l : List ℚ) (hl : l ≠ []) :
    np_std l = Real.sqrt ((((l.map (fun x => x ^ 2)).sum / l.length - mean l ^ 2 : ℚ) : ℝ)) ∧
    (l.length = 1 → np_std l = 0) := by
  constructor
  · rw [np_std, popVar_eq l hl]
  · intro h1
    obtain ⟨a, rfl⟩ := List.length_eq_one.mp h1
    rw [np_std]
    have hv : popVar [a] = 0 := by simp [popVar, mean]
    rw [hv]
    norm_num

/-- Witness for the amended C5 at the concrete series `[0, 2]`. -/
theorem np_std_population_witness :
    np_std [0, 2] =
      Real.sqrt (((([0, 2] : List ℚ).map (fun x => x ^ 2)).sum / ([0, 2] : List ℚ).length
        - mean [0, 2] ^ 2 : ℚ)) ∧
    (([0, 2] : List ℚ).length = 1 → np_std [0, 2] = 0) :=
  np_std_population [0, 2] (by decide)

/-- C4 counterexample: on the series `[0, 100]` the code's p99
(`np.percentile`, linear interpolation) is `99`, which differs from the
nearest-rank value `100` and is not a member of the input's value set. -/
theorem np_percentile99_not_nearest_rank :
    np_percentile99 [0, 100] ≠ p99_nearestRank [0, 100] ∧
      np_percentile99 [0, 100] ∉ ([0, 100] : List ℚ) := by
  have hsort : ([0, 100] : List ℚ).mergeSort (fun a b => a ≤ b) = [0, 100] :=
    List.mergeSort_of_sorted (by norm_num [List.pairwise_cons])
  have hfl : ⌊(99 : ℚ) * (((([0, 100] : List ℚ).length : ℚ)) - 1) / 100⌋ = 0 := by
    norm_num [Int.floor_eq_iff]
  have h99 : np_percentile99 [0, 100] = 99 := by
    simp only [np_percentile99, hsort, hfl]
    norm_num [List.getD]
  have hnr : p99_nearestRank [0, 100] = 100 := by
    simp only [p99_nearestRank, hsort]
    norm_num [List.getD]
  rw [h99, hnr]
  norm_num

/-- C4 amended: the p99 statistic is numpy's default linear-interpolation
percentile, not the nearest-rank value; what survives of the claim's
membership property is that the returned p99 always lies between two members
of the input sequence (hence between its minimum and maximum), though it need
not itself be a member. -/
theorem np_percentile99_between (l : List ℚ) (hl : l ≠ []) :
    (∃ a ∈ l, a ≤ np_percentile99 l) ∧ (∃ b ∈ l, np_percentile99 l ≤ b) := by
  have hlen : (l.mergeSort (fun a b => a ≤ b)).length = l.length := by
    simp
  have hmem : ∀ x, x ∈ l.mergeSort (fun a b => a ≤ b) → x ∈ l := by
    intro x hx
    exact List.mem_mergeSort.mp hx
  have hsorted := mergeSort_pairwise_le l
  have hn : 0 < l.length := List.length_pos.mpr hl
  rcases eq_or_lt_of_le (Nat.one_le_iff_ne_zero.mpr (Nat.pos_iff_ne_zero.mp hn)) with h1 | h2
  · -- a single sample: the percentile is that sample
    have h1' : l.length = 1 := h1.symm
    have hfl : ⌊(99 : ℚ) * ((l.length : ℚ) - 1) / 100⌋ = 0 := by
      rw [h1']
      norm_num
    have hv : np_percentile99 l = (l.mergeSort (fun a b => a ≤ b)).getD 0 0 := by
      simp only [np_percentile99, hfl, h1']
      norm_num
    have hm : (l.mergeSort (fun a b => a ≤ b)).getD 0 0 ∈ l :=
      hmem _ (getD_mem_of_lt _ 0 (by rw [hlen]; omega))
    exact ⟨⟨_, hm, by rw [hv]⟩, ⟨_, hm, by rw [hv]⟩⟩
  · -- at least two samples: interpolation between two adjacent sorted values
    have hd : (1 : ℚ) ≤ (l.length : ℚ) - 1 := by
      have : (2 : ℚ) ≤ (l.length : ℚ) := by exact_mod_cast h2
      linarith
    set hq : ℚ := 99 * ((l.length : ℚ) - 1) / 100 with hhq
    have hq0 : 0 ≤ hq := by rw [hhq]; positivity
    have hfl0 : 0 ≤ ⌊hq⌋ := Int.floor_nonneg.mpr hq0
    set i : ℕ := (⌊hq⌋).toNat with hi
    have hicast : ((i : ℕ) : ℚ) = ((⌊hq⌋ : ℤ) : ℚ) := by
      rw [hi]
      exact_mod_cast congrArg (fun z : ℤ => (z : ℚ)) (Int.toNat_of_nonneg hfl0)
    have hfrac0 : 0 ≤ hq - (i : ℚ) := by
      rw [hicast]
      exact sub_nonneg.mpr (Int.floor_le hq)
    have hfrac1 : hq - (i : ℚ) ≤ 1 := by
      rw [hicast]
      have := Int.lt_floor_add_one hq
      linarith
    have hqlt : hq < (l.length : ℚ) - 1 := by
      rw [hhq]
      linarith
    have hilt : i + 1 < l.length := by
      have hcast : ((⌊hq⌋ : ℤ) : ℚ) < (l.length : ℚ) - 1 := lt_of_le_of_lt (Int.floor_le hq) hqlt
      have : ((i : ℕ) : ℚ) < (l.length : ℚ) - 1 := by rw [hicast]; exact hcast
      have hnat : (i : ℚ) + 1 < (l.length : ℚ) := by linarith
      exact_mod_cast hnat
    have hile : i < l.length := Nat.lt_of_succ_lt hilt
    set s := l.mergeSort (fun a b => a ≤ b) with hs
    have hab : s.getD i 0 ≤ s.getD (i + 1) 0 :=
      getD_mono s hsorted (Nat.le_succ i) (by rw [hlen]; exact hilt)
    have hv : np_percentile99 l = s.getD i 0 + (hq - (i : ℚ)) * (s.getD (i + 1) 0 - s.getD i 0) := by
      simp only [np_percentile99, ← hs, ← hhq, ← hi]
    have hma : s.getD i 0 ∈ l := hmem _ (getD_mem_of_lt s i (by rw [hlen]; exact hile))
    have hmb : s.getD (i + 1) 0 ∈ l := hmem _ (getD_mem_of_lt s (i + 1) (by rw [hlen]; exact hilt))
    refine ⟨⟨s.getD i 0, hma, ?_⟩, ⟨s.getD (i + 1) 0, hmb, ?_⟩⟩
    · rw [hv]
      have e1 : 0 ≤ (hq - (i : ℚ)) * (s.getD (i + 1) 0 - s.getD i 0) :=
        mul_nonneg hfrac0 (sub_nonneg.mpr hab)
      linarith
    · rw [hv]
      have e2 : 0 ≤ (1 - (hq - (i : ℚ))) * (s.getD (i + 1) 0 - s.getD i 0) :=
        mul_nonneg (by linarith) (sub_nonneg.mpr hab)
      nlinarith

/-- Witness for the amended C4 at the concrete series `[0, 100]`. -/
theorem np_percentile99_between_witness :
    (∃ a ∈ ([0, 100] : List ℚ), a ≤ np_percentile99 [0, 100]) ∧
      (∃ b ∈ ([0, 100] : List ℚ), np_percentile99 [0, 100] ≤ b) :=
  np_percentile99_between [0, 100] (by decide)

/-! ### Helper lemmas on the grouping loop -/

/-- `addSample` appends to the looked-up list of the broker it targets and
leaves every other broker's list unchanged. -/
theorem groupLats_addSample (acc : List (String × List ℚ)) (b : String) (x : ℚ) (c : String) :
    groupLats (addSample acc b x) c =
      if c = b then groupLats acc c ++ [x] else groupLats acc c := by
  induction acc with
  | nil =>
      by_cases h : c = b
      · subst h
        simp [addSample, groupLats]
      · have h' : ¬ (b = c) := fun hh => h hh.symm
        simp [addSample, groupLats, h, h']
  | cons hd t ih =>
      obtain ⟨k, xs⟩ := hd
      by_cases hkb : k = b
      · subst hkb
        by_cases hck : c = k
        · subst hck
          simp [addSample, groupLats]
        · have hkc : ¬ (k = c) := fun hh => hck hh.symm
          simp [addSample, groupLats, hck, hkc]
      · by_cases hck : k = c
        · subst hck
          have hcb : ¬ (k = b) := hkb
          simp [addSample, groupLats, hkb, hcb]
        · simp [addSample, groupLats, hkb, hck, ih]

/-- Folding a window into an accumulator appends each broker's window
latencies to its accumulated list. -/
theorem groupLats_foldl (w : List Sample) :
    ∀ (acc : List (String × List ℚ)) (c : String),
      groupLats (w.foldl (fun acc s => addSample acc s.broker s.latency_ms) acc) c =
        groupLats acc c ++ brokerLats w c := by
  induction w with
  | nil =>
      intro acc c
      simp [brokerLats]
  | cons s t ih =>
      intro acc c
      simp only [List.foldl_cons]
      rw [ih, groupLats_addSample]
      by_cases h : c = s.broker
      · rw [if_pos h]
        simp [brokerLats, List.filter_cons, h.symm]
      · rw [if_neg h]
        have h' : ¬ (s.broker = c) := fun hh => h hh.symm
        simp [brokerLats, List.filter_cons, h']

/-- The grouped list of a broker is exactly its window latencies in order. -/
theorem groupLats_groupBrokers (w : List Sample) (c : String) :
    groupLats (groupBrokers w) c = brokerLats w c := by
  have h := groupLats_foldl w [] c
  simpa [groupBrokers, groupLats] using h

/-- A key is present after `addSample` iff it was present before or is the
inserted broker. -/
theorem mem_fst_addSample (acc : List (String × List ℚ)) (b : String) (x : ℚ) (c : String) :
    c ∈ (addSample acc b x).map Prod.fst ↔ c ∈ acc.map Prod.fst ∨ c = b := by
  induction acc with
  | nil => simp [addSample]
  | cons hd t ih =>
      obtain ⟨k, xs⟩ := hd
      by_cases hkb : k = b
      · subst hkb
        simp [addSample, List.mem_cons]
        tauto
      · simp only [addSample, if_neg hkb, List.map_cons, List.mem_cons, ih]
        tauto

/-- `addSample` preserves distinctness of the keys. -/
theorem nodup_fst_addSample (acc : List (String × List ℚ)) (b : String) (x : ℚ)
    (h : (acc.map Prod.fst).Nodup) : ((addSample acc b x).map Prod.fst).Nodup := by
  induction acc with
  | nil => simp [addSample]
  | cons hd t ih =>
      obtain ⟨k, xs⟩ := hd
      simp only [List.map_cons, List.nodup_cons] at h
      by_cases hkb : k = b
      · subst hkb
        simpa [addSample, List.nodup_cons] using h
      · simp only [addSample, if_neg hkb, List.map_cons, List.nodup_cons]
        refine ⟨?_, ih h.2⟩
        rw [mem_fst_addSample]
        rintro (hk | hk)
        · exact h.1 hk
        · exact hkb hk

/-- The keys of the grouping of a window are distinct. -/
theorem nodup_fst_groupBrokers (w : List Sample) : ((groupBrokers w).map Prod.fst).Nodup := by
  have h : ∀ (w' : List Sample) (acc : List (String × List ℚ)),
      (acc.map Prod.fst).Nodup →
      ((w'.foldl (fun acc s => addSample acc s.broker s.latency_ms) acc).map Prod.fst).Nodup := by
    intro w'
    induction w' with
    | nil => intro acc hacc; simpa using hacc
    | cons s t ih =>
        intro acc hacc
        simp only [List.foldl_cons]
        exact ih _ (nodup_fst_addSample acc _ _ hacc)
  exact h w [] (by simp)

/-- A key is a grouped key of the window iff some sample of the window has it
as broker. -/
theorem mem_fst_foldl (w : List Sample) :
    ∀ (acc : List (String × List ℚ)) (c : String),
      c ∈ (w.foldl (fun acc s => addSample acc s.broker s.latency_ms) acc).map Prod.fst ↔
        c ∈ acc.map Prod.fst ∨ ∃ s ∈ w, s.broker = c := by
  induction w with
  | nil =>
      intro acc c
      simp
  | cons s t ih =>
      intro acc c
      simp only [List.foldl_cons]
      rw [ih, mem_fst_addSample]
      simp only [List.mem_cons]
      constructor
      · rintro ((hc | hc) | hc)
        · exact Or.inl hc
        · exact Or.inr ⟨s, Or.inl rfl, hc.symm⟩
        · obtain ⟨s', hs', he⟩ := hc
          exact Or.inr ⟨s', Or.inr hs', he⟩
      · rintro (hc | ⟨s', (rfl | hs'), he⟩)
        · exact Or.inl (Or.inl hc)
        · exact Or.inl (Or.inr he.symm)
        · exact Or.inr ⟨s', hs', he⟩

/-- A broker has a group in the window iff it has at least one sample there. -/
theorem mem_fst_groupBrokers (w : List Sample) (c : String) :
    c ∈ (groupBrokers w).map Prod.fst ↔ brokerLats w c ≠ [] := by
  unfold groupBrokers
  rw [mem_fst_foldl]
  simp only [List.map_nil, List.not_mem_nil, false_or]
  rw [Ne, brokerLats, List.map_eq_nil_iff, List.filter_eq_nil_iff]
  constructor
  · rintro ⟨s, hs, he⟩ hall
    exact hall s hs (by simpa using he)
  · intro hall
    by_contra hno
    push_neg at hno
    exact hall (fun s hs hb => hno s hs (by simpa using hb))

/-- With distinct keys, looking a member pair's key up returns its list. -/
theorem groupLats_mem_pair (g : List (String × List ℚ)) (hg : (g.map Prod.fst).Nodup)
    (p : String × List ℚ) (hp : p ∈ g) : groupLats g p.1 = p.2 := by
  induction g with
  | nil => cases hp
  | cons hd t ih =>
      obtain ⟨k, xs⟩ := hd
      simp only [List.map_cons, List.nodup_cons] at hg
      rcases List.mem_cons.mp hp with rfl | hpt
      · simp [groupLats]
      · have hk : ¬ (k = p.1) := by
          intro he
          apply hg.1
          rw [he]
          exact List.mem_map_of_mem Prod.fst hpt
        simp only [groupLats, if_neg hk]
        exact ih hg.2 hpt

/-- Every pair produced by the grouping loop carries exactly its broker's
window latencies. -/
theorem snd_eq_brokerLats (w : List Sample) (p : String × List ℚ) (hp : p ∈ groupBrokers w) :
    p.2 = brokerLats w p.1 := by
  rw [← groupLats_mem_pair (groupBrokers w) (nodup_fst_groupBrokers w) p hp,
    groupLats_groupBrokers]

/-- A broker passes an `m`-sample filter of the grouping (for positive `m`)
iff it has at least `m` samples in the window. -/
theorem mem_filtered_group (w : List Sample) (m : ℕ) (hm : 1 ≤ m) (b : String) :
    (∃ p ∈ (groupBrokers w).filter (fun p => m ≤ p.2.length), p.1 = b) ↔
      m ≤ (brokerLats w b).length := by
  constructor
  · rintro ⟨p, hpf, rfl⟩
    rcases List.mem_filter.mp hpf with ⟨hpg, hlen⟩
    rw [← snd_eq_brokerLats w p hpg]
    simpa using hlen
  · intro hlen
    have hne : brokerLats w b ≠ [] := by
      intro h0
      rw [h0] at hlen
      simp at hlen
      omega
    obtain ⟨p, hpg, hpb⟩ := List.mem_map.mp ((mem_fst_groupBrokers w b).mpr hne)
    refine ⟨p, List.mem_filter.mpr ⟨hpg, ?_⟩, hpb⟩
    have hsnd := snd_eq_brokerLats w p hpg
    rw [hsnd, hpb]
    simpa using hlen

/-- C6 counterexample: in a window holding exactly 3 samples of broker "a",
the routing query scores (and can output) "a" although its sample count is
below 5, while the public aggregate omits it — the two consumers do not share
the minimum-sample threshold 5. -/
theorem min_samples_counterexample :
    "a" ∈ (scored_brokers
        [⟨"a", 1, 0, "verified"⟩, ⟨"a", 2, 0, "verified"⟩, ⟨"a", 3, 0, "verified"⟩]
        "normal").map ScoredBroker.broker ∧
    (brokerLats
        [⟨"a", 1, 0, "verified"⟩, ⟨"a", 2, 0, "verified"⟩, ⟨"a", 3, 0, "verified"⟩]
        "a").length < 5 ∧
    "a" ∉ (get_global_map
        [⟨"a", 1, 0, "verified"⟩, ⟨"a", 2, 0, "verified"⟩, ⟨"a", 3, 0, "verified"⟩]).map
        GlobalEntry.broker := by
  have hg : groupBrokers
      [⟨"a", 1, 0, "verified"⟩, ⟨"a", 2, 0, "verified"⟩, ⟨"a", 3, 0, "verified"⟩] =
      [("a", [1, 2, 3])] := rfl
  refine ⟨?_, by decide, ?_⟩
  · simp [scored_brokers, hg, scoreBroker]
  · simp [get_global_map, globalResults, hg]

/-- C6 amended: the two consumers use different minimum-sample thresholds —
a source appears in the public aggregate output iff it has at least 5 samples
in the window, and is scored by the routing query iff it has at least 3; in
both cases a source below the threshold is silently omitted rather than
reported as a zero entry or an error. -/
theorem min_samples_thresholds (w : List Sample) (u : String) (b : String) :
    (b ∈ (get_global_map w).map GlobalEntry.broker ↔ 5 ≤ (brokerLats w b).length) ∧
    (b ∈ (scored_brokers w u).map ScoredBroker.broker ↔ 3 ≤ (brokerLats w b).length) := by
  constructor
  · have h1 : b ∈ (get_global_map w).map GlobalEntry.broker ↔
        ∃ p ∈ (groupBrokers w).filter (fun p => 5 ≤ p.2.length), p.1 = b := by
      constructor
      · intro hb
        obtain ⟨e, he, hbe⟩ := List.mem_map.mp hb
        have he2 : e ∈ globalResults w := List.mem_mergeSort.mp he
        obtain ⟨p, hpf, hpe⟩ := List.mem_map.mp he2
        exact ⟨p, hpf, by rw [← hbe, ← hpe]; rfl⟩
      · rintro ⟨p, hpf, hpb⟩
        apply List.mem_map.mpr
        refine ⟨globalEntry (global_avg w) p.1 p.2, ?_, hpb⟩
        exact List.mem_mergeSort.mpr (List.mem_map_of_mem _ hpf)
    rw [h1, mem_filtered_group w 5 (by omega) b]
  · have h2 : b ∈ (scored_brokers w u).map ScoredBroker.broker ↔
        ∃ p ∈ (groupBrokers w).filter (fun p => 3 ≤ p.2.length), p.1 = b := by
      constructor
      · intro hb
        obtain ⟨e, he, hbe⟩ := List.mem_map.mp hb
        obtain ⟨p, hpf, hpe⟩ := List.mem_map.mp he
        exact ⟨p, hpf, by rw [← hbe, ← hpe]; rfl⟩
      · rintro ⟨p, hpf, hpb⟩
        apply List.mem_map.mpr
        exact ⟨scoreBroker u p.1 p.2, List.mem_map_of_mem _ hpf, hpb⟩
    rw [h2, mem_filtered_group w 3 (by omega) b]

/-- C9: for every row the public aggregate reports, the correlation field is
`min(1, mean latency of that broker's window samples / (global mean latency
over all samples of the window + 1))`, the global mean being `0` for an empty
window. -/
theorem correlation_formula (w : List Sample) (e : GlobalEntry) (he : e ∈ get_global_map w) :
    e.correlation = min 1 (mean (brokerLats w e.broker) / (global_avg w + 1)) ∧
    global_avg w = if w = [] then 0 else mean (w.map (fun s => s.latency_ms)) := by
  constructor
  · have he2 : e ∈ globalResults w := by
      simpa [get_global_map, List.mem_mergeSort] using he
    obtain ⟨p, hpf, rfl⟩ := List.mem_map.mp he2
    have hpg : p ∈ groupBrokers w := (List.mem_filter.mp hpf).1
    have hsnd := snd_eq_brokerLats w p hpg
    simp [globalEntry, ← hsnd]
  · unfold global_avg allLats
    rcases eq_or_ne w [] with rfl | hw
    · simp
    · rw [if_neg (by simpa using hw), if_neg hw]

/-- Witness for C9 on a concrete window of five samples of broker "a". -/
theorem correlation_formula_witness :
    (globalEntry
        (global_avg [⟨"a", 1, 0, "v"⟩, ⟨"a", 2, 0, "v"⟩, ⟨"a", 3, 0, "v"⟩,
          ⟨"a", 4, 0, "v"⟩, ⟨"a", 5, 0, "v"⟩])
        "a" [1, 2, 3, 4, 5]).correlation =
      min 1 (mean (brokerLats [⟨"a", 1, 0, "v"⟩, ⟨"a", 2, 0, "v"⟩, ⟨"a", 3, 0, "v"⟩,
          ⟨"a", 4, 0, "v"⟩, ⟨"a", 5, 0, "v"⟩] "a") /
        (global_avg [⟨"a", 1, 0, "v"⟩, ⟨"a", 2, 0, "v"⟩, ⟨"a", 3, 0, "v"⟩,
          ⟨"a", 4, 0, "v"⟩, ⟨"a", 5, 0, "v"⟩] + 1)) := by
  have h := (correlation_formula
    [⟨"a", 1, 0, "v"⟩, ⟨"a", 2, 0, "v"⟩, ⟨"a", 3, 0, "v"⟩, ⟨"a", 4, 0, "v"⟩, ⟨"a", 5, 0, "v"⟩]
    (globalEntry
      (global_avg [⟨"a", 1, 0, "v"⟩, ⟨"a", 2, 0, "v"⟩, ⟨"a", 3, 0, "v"⟩,
        ⟨"a", 4, 0, "v"⟩, ⟨"a", 5, 0, "v"⟩])
      "a" [1, 2, 3, 4, 5])
    (by
      have hg : groupBrokers [⟨"a", 1, 0, "v"⟩, ⟨"a", 2, 0, "v"⟩, ⟨"a", 3, 0, "v"⟩,
          ⟨"a", 4, 0, "v"⟩, ⟨"a", 5, 0, "v"⟩] = [("a", [1, 2, 3, 4, 5])] := rfl
      simp [get_global_map, globalResults, hg])).1
  simpa [globalEntry] using h

/-- C10: two telemetry payloads whose broker names agree up to letter case are
stored under the same broker key, and in every window containing both stored
samples their latencies land in the same group of the shared grouping loop
used by both the aggregation and the routing query. -/
theorem grouping_case_insensitive (p1 p2 : TelemetryPayload)
    (hb : pyLower p1.broker = pyLower p2.broker) (w : List Sample)
    (h1 : submit_telemetry p1 ∈ w) (h2 : submit_telemetry p2 ∈ w) :
    (submit_telemetry p1).broker = (submit_telemetry p2).broker ∧
    p1.latency_ms ∈ groupLats (groupBrokers w) ((submit_telemetry p1).broker) ∧
    p2.latency_ms ∈ groupLats (groupBrokers w) ((submit_telemetry p1).broker) := by
  have hbe : (submit_telemetry p1).broker = (submit_telemetry p2).broker := by
    simpa [submit_telemetry] using hb
  refine ⟨hbe, ?_, ?_⟩
  · rw [groupLats_groupBrokers]
    unfold brokerLats
    exact List.mem_map.mpr ⟨submit_telemetry p1,
      List.mem_filter.mpr ⟨h1, by simp⟩, rfl⟩
  · rw [groupLats_groupBrokers]
    unfold brokerLats
    exact List.mem_map.mpr ⟨submit_telemetry p2,
      List.mem_filter.mpr ⟨h2, by simp [hbe]⟩, rfl⟩

/-- Witness for C10: the payloads "NySe" and "nyse" differ only in case, and
in a window holding both their latencies share one group. -/
theorem grouping_case_insensitive_witness :
    (submit_telemetry ⟨"NySe", 3, 0, "verified"⟩).broker =
      (submit_telemetry ⟨"nyse", 4, 0, "verified"⟩).broker ∧
    (3 : ℚ) ∈ groupLats
      (groupBrokers [submit_telemetry ⟨"NySe", 3, 0, "verified"⟩,
        submit_telemetry ⟨"nyse", 4, 0, "verified"⟩])
      ((submit_telemetry ⟨"NySe", 3, 0, "verified"⟩).broker) ∧
    (4 : ℚ) ∈ groupLats
      (groupBrokers [submit_telemetry ⟨"NySe", 3, 0, "verified"⟩,
        submit_telemetry ⟨"nyse", 4, 0, "verified"⟩])
      ((submit_telemetry ⟨"NySe", 3, 0, "verified"⟩).broker) :=
  grouping_case_insensitive ⟨"NySe", 3, 0, "verified"⟩ ⟨"nyse", 4, 0, "verified"⟩
    (by decide)
    [submit_telemetry ⟨"NySe", 3, 0, "verified"⟩, submit_telemetry ⟨"nyse", 4, 0, "verified"⟩]
    (List.mem_cons_self _ _) (List.mem_cons_of_mem _ (List.mem_cons_self _ _))

/-- The sorted scored-broker list is an ascending `score` chain. -/
theorem sortedScored_pairwise (w : List Sample) (u : String) :
    (sortedScored w u).Pairwise (fun a b : ScoredBroker => a.score ≤ b.score) := by
  have h := @List.sorted_mergeSort ScoredBroker (fun a b => decide (a.score ≤ b.score))
    (fun a b c h1 h2 => by
      simp only [decide_eq_true_eq] at *
      exact le_trans h1 h2)
    (fun a b => by simp [le_total]) (scored_brokers w u)
  exact h.imp (fun hb => of_decide_eq_true hb)

/-- C7: when no broker qualifies (in particular for an empty window, where the
public aggregate also returns the empty list) the route endpoint returns the
distinct normal outcome with status "no_data" and a null recommendation; when
at least one broker qualifies it returns status "optimized", recommends a
scored broker whose reported score is minimal among all qualifying brokers,
and returns as alternatives the brokers ranked second and third (at most two)
of the ascending sort, each scored at least as high as the recommendation. -/
theorem route_endpoint_behavior (w : List Sample) (req : RoutingRequest) :
    (scored_brokers w req.urgency = [] →
       get_smart_route w req = ⟨"no_data", none, none, none, none⟩) ∧
    (w = [] → scored_brokers w req.urgency = [] ∧ get_global_map w = []) ∧
    (scored_brokers w req.urgency ≠ [] →
       ∃ best : ScoredBroker,
         best ∈ scored_brokers w req.urgency ∧
         (∀ x ∈ scored_brokers w req.urgency, best.score ≤ x.score) ∧
         get_smart_route w req =
           ⟨"optimized", some best.broker, some best.latency_ms, some best.risk_flags,
             some (((sortedScored w req.urgency).drop 1).take 2)⟩ ∧
         (((sortedScored w req.urgency).drop 1).take 2).length ≤ 2 ∧
         (∀ a ∈ ((sortedScored w req.urgency).drop 1).take 2,
            a ∈ scored_brokers w req.urgency ∧ best.score ≤ a.score)) := by
  refine ⟨?_, ?_, ?_⟩
  · intro h
    have hs : sortedScored w req.urgency = [] := by
      simp [sortedScored, h]
    simp [get_smart_route, hs]
  · intro hw
    subst hw
    constructor
    · simp [scored_brokers, groupBrokers]
    · simp [get_global_map, globalResults, groupBrokers]
  · intro h
    cases hs : sortedScored w req.urgency with
    | nil =>
        exfalso
        apply h
        have hlen : (sortedScored w req.urgency).length = (scored_brokers w req.urgency).length := by
          simp [sortedScored]
        rw [hs] at hlen
        exact List.length_eq_zero.mp hlen.symm
    | cons best rest =>
        have hpw := sortedScored_pairwise w req.urgency
        rw [hs] at hpw
        have hhead := (List.pairwise_cons.mp hpw).1
        have hmem_sorted : ∀ x : ScoredBroker,
            x ∈ sortedScored w req.urgency ↔ x ∈ scored_brokers w req.urgency := by
          intro x
          simp [sortedScored, List.mem_mergeSort]
        refine ⟨best, ?_, ?_, ?_, ?_, ?_⟩
        · rw [← hmem_sorted best, hs]
          exact List.mem_cons_self _ _
        · intro x hx
          rw [← hmem_sorted x, hs] at hx
          rcases List.mem_cons.mp hx with rfl | hxr
          · exact le_refl _
          · exact hhead x hxr
        · simp [get_smart_route, hs]
        · exact List.length_take_le 2 _
        · intro a ha
          simp only [List.drop_succ_cons, List.drop_zero] at ha
          have har : a ∈ rest := List.mem_of_mem_take ha
          constructor
          · rw [← hmem_sorted a, hs]
            exact List.mem_cons_of_mem _ har
          · exact hhead a har

/-- Witness for C7 on a concrete window of three samples of one broker,
and on the empty window. -/
theorem route_endpoint_behavior_witness :
    (∃ best : ScoredBroker,
       best ∈ scored_brokers
         [⟨"a", 1, 0, "verified"⟩, ⟨"a", 2, 0, "verified"⟩, ⟨"a", 3, 0, "verified"⟩]
         (RoutingRequest.mk "BTC" 1 "normal").urgency ∧
       (∀ x ∈ scored_brokers
           [⟨"a", 1, 0, "verified"⟩, ⟨"a", 2, 0, "verified"⟩, ⟨"a", 3, 0, "verified"⟩]
           (RoutingRequest.mk "BTC" 1 "normal").urgency, best.score ≤ x.score) ∧
       get_smart_route
           [⟨"a", 1, 0, "verified"⟩, ⟨"a", 2, 0, "verified"⟩, ⟨"a", 3, 0, "verified"⟩]
           (RoutingRequest.mk "BTC" 1 "normal") =
         ⟨"optimized", some best.broker, some best.latency_ms, some best.risk_flags,
           some (((sortedScored
             [⟨"a", 1, 0, "verified"⟩, ⟨"a", 2, 0, "verified"⟩, ⟨"a", 3, 0, "verified"⟩]
             (RoutingRequest.mk "BTC" 1 "normal").urgency).drop 1).take 2)⟩ ∧
       (((sortedScored
           [⟨"a", 1, 0, "verified"⟩, ⟨"a", 2, 0, "verified"⟩, ⟨"a", 3, 0, "verified"⟩]
           (RoutingRequest.mk "BTC" 1 "normal").urgency).drop 1).take 2).length ≤ 2 ∧
       (∀ a ∈ ((sortedScored
           [⟨"a", 1, 0, "verified"⟩, ⟨"a", 2, 0, "verified"⟩, ⟨"a", 3, 0, "verified"⟩]
           (RoutingRequest.mk "BTC" 1 "normal").urgency).drop 1).take 2,
          a ∈ scored_brokers
            [⟨"a", 1, 0, "verified"⟩, ⟨"a", 2, 0, "verified"⟩, ⟨"a", 3, 0, "verified"⟩]
            (RoutingRequest.mk "BTC" 1 "normal").urgency ∧ best.score ≤ a.score)) ∧
    get_smart_route [] (RoutingRequest.mk "BTC" 1 "normal") =
      ⟨"no_data", none, none, none, none⟩ ∧
    get_global_map [] = [] := by
  have hg : groupBrokers
      [⟨"a", 1, 0, "verified"⟩, ⟨"a", 2, 0, "verified"⟩, ⟨"a", 3, 0, "verified"⟩] =
      [("a", [1, 2, 3])] := rfl
  have hne : scored_brokers
      [⟨"a", 1, 0, "verified"⟩, ⟨"a", 2, 0, "verified"⟩, ⟨"a", 3, 0, "verified"⟩]
      (RoutingRequest.mk "BTC" 1 "normal").urgency ≠ [] := by
    simp [scored_brokers, hg]
  have hempty := route_endpoint_behavior [] (RoutingRequest.mk "BTC" 1 "normal")
  refine ⟨(route_endpoint_behavior
      [⟨"a", 1, 0, "verified"⟩, ⟨"a", 2, 0, "verified"⟩, ⟨"a", 3, 0, "verified"⟩]
      (RoutingRequest.mk "BTC" 1 "normal")).2.2 hne, ?_, (hempty.2.1 rfl).2⟩
  exact hempty.1 ((hempty.2.1 rfl).1)

end PnL
